import Mathlib

/-!
Verification development for the myScraper repository (net-value scrapers for
ICBC and CMB). We embed the table-extraction and data-cleaning logic as Lean
functions and prove the specified properties about them.

Embedded source functions:
* `src/icbc_scraper.py`:
  `ICBCNetValueScraper._parse_table`, `ICBCNetValueScraper.parse_page`,
  `ICBCNetValueScraper.save_tables_to_csv`
* `src/icbc_scraper_selenium.py`: `ICBCNetValueScraperSelenium._parse_table`
* `src/scraper.py`: `CMBNetValueScraper._extract_from_table` (row filtering)
* `src/utils.py`: `clean_numeric_data`, `extract_financial_data`,
  `convert_json_to_csv`
-/

namespace MyScraper

/-- Model of a parsed HTML node as produced by BeautifulSoup: either a text
node or an element with a tag name and a list of children.  Attributes are
not modelled: none of the embedded functions consults them. -/
inductive Html where
  | text (s : String) : Html
  | elem (tag : String) (children : List Html) : Html
  deriving Repr

mutual

/-- Decidable equality of nodes (the automatic derivation does not handle
the nested `List Html`). -/
def Html.decEq : (a b : Html) → Decidable (a = b)
  | .text s, .text t =>
    match String.decEq s t with
    | isTrue h => isTrue (by rw [h])
    | isFalse h => isFalse (by intro hh; injection hh; contradiction)
  | .text _, .elem _ _ => isFalse (by intro h; exact Html.noConfusion h)
  | .elem _ _, .text _ => isFalse (by intro h; exact Html.noConfusion h)
  | .elem t1 cs1, .elem t2 cs2 =>
    match String.decEq t1 t2, Html.decEqList cs1 cs2 with
    | isTrue h1, isTrue h2 => isTrue (by rw [h1, h2])
    | isFalse h1, _ => isFalse (by intro hh; injection hh; contradiction)
    | isTrue _, isFalse h2 => isFalse (by intro hh; injection hh; contradiction)

/-- Decidable equality of node lists. -/
def Html.decEqList : (a b : List Html) → Decidable (a = b)
  | [], [] => isTrue rfl
  | [], _ :: _ => isFalse (by intro h; exact List.noConfusion h)
  | _ :: _, [] => isFalse (by intro h; exact List.noConfusion h)
  | a :: as, b :: bs =>
    match Html.decEq a b, Html.decEqList as bs with
    | isTrue h1, isTrue h2 => isTrue (by rw [h1, h2])
    | isFalse h1, _ => isFalse (by intro hh; injection hh; contradiction)
    | isTrue _, isFalse h2 => isFalse (by intro hh; injection hh; contradiction)

end

instance : DecidableEq Html := Html.decEq

mutual

/-- Nodes strictly below a node, in document (pre-)order.  This is the
search space of BeautifulSoup's `find` / `find_all` on an element. -/
def Html.descendants : Html → List Html
  | .text _ => []
  | .elem _ cs => Html.descendantsList cs

/-- Descendants of a forest: each root followed by its own descendants. -/
def Html.descendantsList : List Html → List Html
  | [] => []
  | c :: cs => c :: (Html.descendants c ++ Html.descendantsList cs)

end

/-- Test whether a node is an element whose tag belongs to `tags`. -/
def Html.hasTagIn (tags : List String) : Html → Bool
  | .text _ => false
  | .elem t _ => tags.contains t

/-- Model of `element.find_all(tags)`: every matching element descendant, in
document order. -/
def findAll (tags : List String) (h : Html) : List Html :=
  h.descendants.filter (Html.hasTagIn tags)

/-- Model of `element.find(tag)`: the first matching descendant, if any. -/
def findFirst (tag : String) (h : Html) : Option Html :=
  (findAll [tag] h).head?

/-- Characters stripped by Python's `str.strip()` (ASCII whitespace; the
embedded strings never contain the non-ASCII whitespace Python also strips). -/
def pyIsSpace (c : Char) : Bool :=
  c = ' ' || c = '\t' || c = '\n' || c = '\r' || c = '\x0b' || c = '\x0c'

/-- Python `str.strip()` on a character list. -/
def pyStripList (cs : List Char) : List Char :=
  ((cs.dropWhile pyIsSpace).reverse.dropWhile pyIsSpace).reverse

/-- Python `str.strip()`. -/
def pyStrip (s : String) : String :=
  ⟨pyStripList s.data⟩

mutual

/-- Model of BeautifulSoup `get_text(strip=True)`: concatenation of every
descendant text piece, each stripped.  (BeautifulSoup also skips pieces that
strip to empty, which is invisible when joining with the empty separator.) -/
def Html.getTextStrip : Html → String
  | .text s => pyStrip s
  | .elem _ cs => Html.getTextStripList cs

/-- Stripped text of a forest, concatenated. -/
def Html.getTextStripList : List Html → String
  | [] => ""
  | c :: cs => Html.getTextStrip c ++ Html.getTextStripList cs

end

mutual

/-- Model of BeautifulSoup's `.text` property (`get_text()` with no
stripping): raw concatenation of every descendant text piece. -/
def Html.getTextRaw : Html → String
  | .text s => s
  | .elem _ cs => Html.getTextRawList cs

/-- Raw text of a forest, concatenated. -/
def Html.getTextRawList : List Html → String
  | [] => ""
  | c :: cs => Html.getTextRaw c ++ Html.getTextRawList cs

end

/-- Return value of `_parse_table`: the dict `{'headers': ..., 'rows': ...}`. -/
structure TableData where
  headers : List String
  rows : List (List String)
  deriving DecidableEq, Repr

/-- Header extraction of `ICBCNetValueScraper._parse_table`
(src/icbc_scraper.py, lines 235-242): cells of the first `thead` descendant
when present, else cells of the first `tr` descendant, else empty. -/
def icbcHeaders (table : Html) : List String :=
  match findFirst "thead" table with
  | some header_row => (findAll ["th", "td"] header_row).map Html.getTextStrip
  | none =>
    match findFirst "tr" table with
    | some first_row => (findAll ["th", "td"] first_row).map Html.getTextStrip
    | none => []

/-- Row-element selection of `ICBCNetValueScraper._parse_table`
(src/icbc_scraper.py, lines 244-249): rows of the first `tbody` descendant
when present, else `table.find_all('tr')[1:] if headers else
table.find_all('tr')`, where `headers` is the value computed above. -/
def icbcTableRowElems (table : Html) : List Html :=
  match findFirst "tbody" table with
  | some tbody => findAll ["tr"] tbody
  | none =>
    if (icbcHeaders table).isEmpty then findAll ["tr"] table
    else (findAll ["tr"] table).drop 1

/-- Body of the row loop of `_parse_table` (src/icbc_scraper.py, lines
251-255): a row contributes its list of cell texts when it has at least
one `td`/`th` cell, and is skipped otherwise. -/
def icbcRowfn (row : Html) : Option (List String) :=
  let cells := findAll ["td", "th"] row
  if cells.isEmpty then none
  else some (cells.map Html.getTextStrip)

/-- Embedding of `ICBCNetValueScraper._parse_table` (src/icbc_scraper.py,
lines 231-260), on the no-exception path. -/
def parse_table (table : Html) : TableData :=
  { headers := icbcHeaders table
    rows := (icbcTableRowElems table).filterMap icbcRowfn }

/-- Header extraction of `ICBCNetValueScraperSelenium._parse_table`
(src/icbc_scraper_selenium.py, lines 211-214).  Unlike the requests-based
scraper there is no first-row fallback: headers come only from a `thead`
descendant and stay empty otherwise. -/
def seleniumHeaders (table : Html) : List String :=
  match findFirst "thead" table with
  | some header_row => (findAll ["th", "td"] header_row).map Html.getTextStrip
  | none => []

/-- Row-element selection of the Selenium `_parse_table`
(src/icbc_scraper_selenium.py, lines 217-221), same rule as the
requests-based scraper but over its own headers value. -/
def seleniumTableRowElems (table : Html) : List Html :=
  match findFirst "tbody" table with
  | some tbody => findAll ["tr"] tbody
  | none =>
    if (seleniumHeaders table).isEmpty then findAll ["tr"] table
    else (findAll ["tr"] table).drop 1

/-- Embedding of `ICBCNetValueScraperSelenium._parse_table`
(src/icbc_scraper_selenium.py, lines 197-232), no-exception path.  The row
loop (lines 223-227) is identical to the requests-based scraper's. -/
def parse_table_selenium (table : Html) : TableData :=
  { headers := seleniumHeaders table
    rows := (seleniumTableRowElems table).filterMap icbcRowfn }

/-- One entry of the `tables` list built by `parse_page`:
`{'index': ..., 'headers': ..., 'rows': ...}`. -/
structure IndexedTable where
  index : Nat
  headers : List String
  rows : List (List String)
  deriving DecidableEq, Repr

/-- Embedding of the table loop of `parse_page` (src/icbc_scraper.py, lines
177-185): `for table_idx, table in enumerate(tables)`, appending an entry
with the enumeration index only when the parsed rows are non-empty. -/
def extractTablesLoop : Nat → List Html → List IndexedTable
  | _, [] => []
  | i, t :: ts =>
    let td := parse_table t
    if td.rows.isEmpty then extractTablesLoop (i + 1) ts
    else ⟨i, td.headers, td.rows⟩ :: extractTablesLoop (i + 1) ts

/-- Modelled fields of the dict returned by `parse_page`.  The fields
`url_parameters`, `content_sections` and `metadata` are further
deterministic functions of the document and URL and are not modelled (no
claim mentions them); `scraped_at` is `datetime.now().isoformat()`, modelled
by the explicit `now` argument; `error` is present exactly on the
exception path. -/
structure PageData where
  scraped_at : String
  url : String
  page_title : Option String
  tables : List IndexedTable
  error : Option String
  deriving DecidableEq, Repr

/-- Embedding of `ICBCNetValueScraper.parse_page` (src/icbc_scraper.py,
lines 150-219) on the no-exception path, as a function of the base URL, the
current timestamp and the parsed document. -/
def parse_page (base_url now : String) (doc : Html) : PageData :=
  { scraped_at := now
    url := base_url
    page_title := (findFirst "title" doc).map (fun t => pyStrip t.getTextRaw)
    tables := extractTablesLoop 0 (findAll ["table"] doc)
    error := none }

/-! Fallible variants.  Python statements inside the `try:` blocks can in
principle raise; the oracle `g : Html → Option String` models reading an
element's text (`get_text(strip=True)` on a cell), with `none` meaning the
read raises.  Python exception semantics is preserved: an exception during
the header list comprehension means the assignment to `headers` never
happens and control jumps to `except`, so both lists come back empty; an
exception during the row loop leaves the already-assigned headers and the
rows appended so far. -/

/-- Evaluation of a Python list comprehension under the read oracle: the
whole list, or `none` as soon as one read raises. -/
def mapOrNone (g : Html → Option String) : List Html → Option (List String)
  | [] => some []
  | c :: cs =>
    match g c, mapOrNone g cs with
    | some s, some ss => some (s :: ss)
    | _, _ => none

/-- Header phase of `_parse_table` under the read oracle `g`: `none` means
an exception was raised while building the header list. -/
def fallibleHeaders (g : Html → Option String) (table : Html) : Option (List String) :=
  match findFirst "thead" table with
  | some header_row => mapOrNone g (findAll ["th", "td"] header_row)
  | none =>
    match findFirst "tr" table with
    | some first_row => mapOrNone g (findAll ["th", "td"] first_row)
    | none => some []

/-- Row loop of `_parse_table` under the read oracle `g`: an exception while
reading a row's cells aborts the loop, keeping the rows appended so far. -/
def fallibleRowsLoop (g : Html → Option String) : List Html → List (List String)
  | [] => []
  | row :: rest =>
    let cells := findAll ["td", "th"] row
    if cells.isEmpty then fallibleRowsLoop g rest
    else
      match mapOrNone g cells with
      | none => []
      | some row_data => row_data :: fallibleRowsLoop g rest

/-- Embedding of `ICBCNetValueScraper._parse_table` including its
`try/except` (src/icbc_scraper.py, lines 231-260), under the read oracle
`g`. -/
def parse_tableF (g : Html → Option String) (table : Html) : TableData :=
  match fallibleHeaders g table with
  | none => { headers := [], rows := [] }
  | some headers =>
    let table_rows : List Html :=
      match findFirst "tbody" table with
      | some tbody => findAll ["tr"] tbody
      | none =>
        if headers.isEmpty then findAll ["tr"] table
        else (findAll ["tr"] table).drop 1
    { headers := headers, rows := fallibleRowsLoop g table_rows }

/-- Table loop of `parse_page` over the fallible per-table parser. -/
def extractTablesLoopF (g : Html → Option String) : Nat → List Html → List IndexedTable
  | _, [] => []
  | i, t :: ts =>
    let td := parse_tableF g t
    if td.rows.isEmpty then extractTablesLoopF g (i + 1) ts
    else ⟨i, td.headers, td.rows⟩ :: extractTablesLoopF g (i + 1) ts

/-- Title step of `parse_page` under the raw-text read oracle `gRaw`:
`some pt` is the computed `page_title` value, `none` means the read of
`title_tag.text` raised. -/
def titleReadF (gRaw : Html → Option String) (doc : Html) : Option (Option String) :=
  match findFirst "title" doc with
  | none => some none
  | some t => (gRaw t).map (fun s => some (pyStrip s))

/-- Embedding of `ICBCNetValueScraper.parse_page` including its outer
`try/except` (src/icbc_scraper.py, lines 150-219).  `parseHtml` models the
`BeautifulSoup(html_content, 'html.parser')` step (`none` = it raised);
`gRaw` models the `.text` read on the title tag; `gStrip` models
`get_text(strip=True)` on cells.  On the exception path the code returns a
dict with `scraped_at`, `url`, `error` and empty `tables` (the error
message's content is not modelled). -/
def parse_pageF (parseHtml : String → Option Html) (gRaw gStrip : Html → Option String)
    (base_url now html_content : String) : PageData :=
  match parseHtml html_content with
  | none =>
    { scraped_at := now, url := base_url, page_title := none, tables := [],
      error := some "parse failure" }
  | some doc =>
    match titleReadF gRaw doc with
    | none =>
      { scraped_at := now, url := base_url, page_title := none, tables := [],
        error := some "parse failure" }
    | some pt =>
      { scraped_at := now, url := base_url, page_title := pt,
        tables := extractTablesLoopF gStrip 0 (findAll ["table"] doc),
        error := none }

/-! CSV writing (src/icbc_scraper.py `save_tables_to_csv`, lines 305-347,
and src/utils.py `convert_json_to_csv`, lines 113-118).  A written CSV file
is modelled as the list of records passed to `writer.writerow`, in order. -/

/-- Records written for one table: `writerow(headers)` when the headers
list is truthy (non-empty), then `writerow(row)` for each row in order. -/
def writeCsvRecords (headers : List String) (rows : List (List String)) : List (List String) :=
  let file0 : List (List String) := []
  let file1 := if headers.isEmpty then file0 else file0 ++ [headers]
  rows.foldl (fun file row => file ++ [row]) file1

/-- Embedding of `save_tables_to_csv`: one CSV file (list of records) per
entry of the `tables` list, in order. -/
def save_tables_to_csv (tables : List IndexedTable) : List (List (List String)) :=
  tables.map (fun t => writeCsvRecords t.headers t.rows)

/-! CMB scraper (src/scraper.py `CMBNetValueScraper._extract_from_table`,
lines 180-228).  A Selenium `tr` element is modelled by the list of the raw
`.text` values of the cell elements matched inside it by the configured CSS
cell selector. -/

/-- One table row as seen by the CMB extractor: the raw text of each
matched cell element. -/
structure SelRow where
  cells : List String
  deriving DecidableEq, Repr

/-- Embedding of the row-extraction core of
`CMBNetValueScraper._extract_from_table` (src/scraper.py, lines 196-224),
no-exception path: the first row's stripped cell texts are appended as the
header record; every later row is appended only if it has at least one cell
element and at least one of its stripped cell texts is truthy (non-empty). -/
def cmb_extract_from_table (rows : List SelRow) : List (List String) :=
  match rows with
  | [] => []
  | header_row :: rest =>
    let headers := header_row.cells.map pyStrip
    headers :: rest.filterMap (fun row =>
      if row.cells.isEmpty then none
      else
        let row_data := row.cells.map pyStrip
        if row_data.any (fun s => !s.isEmpty) then some row_data else none)

/-! Numeric cleaning (src/utils.py `clean_numeric_data`, lines 230-250).
Python's `float()` on a string is modelled as an exact decimal parser into
`ℚ` via a pair (mantissa, power of ten): sign, digits with single
underscores allowed between digits, optional fraction, optional exponent,
surrounded by optional whitespace.  The non-finite inputs `inf`/`nan` that
Python also accepts lie outside this numeric model; no claim involves
them. -/

/-- Greedy parse of a digit run in which single underscores may separate
digits (Python numeric literal syntax accepted by `float()`); returns the
digits read and the unconsumed remainder. -/
def takeDigitsU : List Char → (List Char × List Char)
  | [] => ([], [])
  | [c] => if c.isDigit then ([c], []) else ([], [c])
  | c :: d :: rest =>
    if c.isDigit then
      if d = '_' then
        match rest with
        | e :: _ =>
          if e.isDigit then
            let p := takeDigitsU rest
            (c :: p.1, p.2)
          else ([c], d :: rest)
        | [] => ([c], [d])
      else
        let p := takeDigitsU (d :: rest)
        (c :: p.1, p.2)
    else ([], c :: d :: rest)

/-- Numeric value of a digit list. -/
def digitsToNat (ds : List Char) : Nat :=
  ds.foldl (fun n c => 10 * n + (c.toNat - '0'.toNat)) 0

/-- Optional exponent suffix after the mantissa.  Succeeds only when the
whole remaining input is consumed. -/
def parseExpTail (m : Nat) (e : Int) : List Char → Option (Nat × Int)
  | [] => some (m, e)
  | c :: r =>
    if c = 'e' || c = 'E' then
      let body : (Bool × List Char) :=
        match r with
        | '+' :: rr => (false, rr)
        | '-' :: rr => (true, rr)
        | _ => (false, r)
      let p := takeDigitsU body.2
      if p.1.isEmpty then none
      else if p.2.isEmpty then
        some (m, e + (if body.1 then -(digitsToNat p.1 : Int) else (digitsToNat p.1 : Int)))
      else none
    else none

/-- Unsigned decimal: `digits [. digits] [exp]` or `. digits [exp]`, value
`m * 10 ^ e`. -/
def parseSciUnsigned (cs : List Char) : Option (Nat × Int) :=
  let ipp := takeDigitsU cs
  match ipp.2 with
  | '.' :: r2 =>
    let fpp := takeDigitsU r2
    if ipp.1.isEmpty && fpp.1.isEmpty then none
    else parseExpTail (digitsToNat (ipp.1 ++ fpp.1)) (-(fpp.1.length : Int)) fpp.2
  | _ =>
    if ipp.1.isEmpty then none
    else parseExpTail (digitsToNat ipp.1) 0 ipp.2

/-- Full `float()` string parse: strip, optional sign, unsigned decimal.
Result `(m, e)` denotes the value `m * 10 ^ e`. -/
def pythonFloatParse (s : String) : Option (Int × Int) :=
  match pyStripList s.data with
  | '+' :: r => (parseSciUnsigned r).map (fun p => ((p.1 : Int), p.2))
  | '-' :: r => (parseSciUnsigned r).map (fun p => (-(p.1 : Int), p.2))
  | r => (parseSciUnsigned r).map (fun p => ((p.1 : Int), p.2))

/-- Exact rational value of a parsed `(mantissa, power of ten)` pair. -/
def pyFloatValue (p : Int × Int) : ℚ :=
  if 0 ≤ p.2 then (p.1 : ℚ) * (10 : ℚ) ^ p.2.toNat
  else (p.1 : ℚ) / (10 : ℚ) ^ (-p.2).toNat

/-- Structural part of `clean_numeric_data`: strip the value, delete every
`,`, `¥`, `%` and `元` character (the four sequential single-character
`str.replace` calls), then parse as a float. -/
def cleanParse (value : String) : Option (Int × Int) :=
  let v := pyStrip value
  let v : String := ⟨v.data.filter (fun c => !(c = ',' || c = '¥' || c = '%' || c = '元'))⟩
  pythonFloatParse v

/-- Embedding of `clean_numeric_data` (src/utils.py, lines 230-250):
the cleaned numeric value, or `none` when the float conversion raises. -/
def clean_numeric_data (value : String) : Option ℚ :=
  (cleanParse value).map pyFloatValue

/-! Financial extraction (src/utils.py `extract_financial_data`, lines
128-166). -/

/-- Python's substring test `needle in hay`. -/
def strContains (hay needle : String) : Bool :=
  (List.range (hay.data.length + 1)).any (fun i => needle.data.isPrefixOf (hay.data.drop i))

/-- Python `str.lower()` (ASCII case folding; the Latin search terms and
headers involved are ASCII, and CJK characters have no case). -/
def pyLower (s : String) : String :=
  ⟨s.data.map Char.toLower⟩

/-- Header test of `extract_financial_data`:
`'net' in h.lower() or 'value' in h.lower() or '净值' in h`. -/
def isNetValueHeader (h : String) : Bool :=
  strContains (pyLower h) "net" || strContains (pyLower h) "value" || strContains h "净值"

/-- The list comprehension `net_value_cols`: indices of matching headers. -/
def net_value_cols (headers : List String) : List Nat :=
  (List.range headers.length).filter (fun i => isNetValueHeader (headers.getD i ""))

/-- Python dict assignment `d[k] = v` on an insertion-ordered association
list with unique keys (the invariant every Python dict maintains): update
the value at the existing entry for `k`, keeping its position, else append
the new pair. -/
def dictInsert : List (String × String) → String → String → List (String × String)
  | [], k, v => [(k, v)]
  | p :: m, k, v => if p.1 == k then (k, v) :: m else p :: dictInsert m k v

/-- Value assigned for header position `i` in `row_dict`:
`row[i] if i < len(row) else ''`. -/
def rowValueAt (row : List String) (i : Nat) : String :=
  if i < row.length then row.getD i "" else ""

/-- The dict comprehension `row_dict` of `extract_financial_data`, line
157: `{headers[i]: row[i] if i < len(row) else '' for i in range(len(headers))}`,
modelled as sequential dict insertion. -/
def row_dict (headers row : List String) : List (String × String) :=
  (List.range headers.length).foldl
    (fun m i => dictInsert m (headers.getD i "") (rowValueAt row i))
    []

/-- One iteration of the table loop of `extract_financial_data`: when the
table's headers match the net-value test (`if net_value_cols:`), append one
`row_dict` per row, else leave the accumulator unchanged. -/
def efdStep (acc : List (List (String × String))) (t : TableData) :
    List (List (String × String)) :=
  if (net_value_cols t.headers).isEmpty then acc
  else acc ++ t.rows.map (fun row => row_dict t.headers row)

/-- Embedding of the `net_values` accumulation of `extract_financial_data`
(src/utils.py, lines 145-159): for each table whose headers match the
net-value test, append one `row_dict` per row. -/
def extract_financial_data (tables : List TableData) : List (List (String × String)) :=
  tables.foldl efdStep []

/-! Definitions written from the specification's words, for comparison with
the code (refinement targets for the header / data-row rules). -/

/-- Spec rule for headers (spec.md section 4.1, step 2): cells of the
header-section descendant when present, else cells of the first row, else
empty. -/
def specHeaders (t : Html) : List String :=
  match findFirst "thead" t with
  | some hsec => (findAll ["th", "td"] hsec).map Html.getTextStrip
  | none =>
    match findFirst "tr" t with
    | some fr => (findAll ["th", "td"] fr).map Html.getTextStrip
    | none => []

/-- Spec rule for which row elements are data rows (spec.md section 4.1,
step 3): rows of the body-section descendant when present, else every row
except the first when headers were found, else all rows. -/
def specDataRowElems (t : Html) : List Html :=
  match findFirst "tbody" t with
  | some body => findAll ["tr"] body
  | none =>
    if specHeaders t = [] then findAll ["tr"] t
    else (findAll ["tr"] t).drop 1

/-- Spec rule for extracted data rows: keep exactly the row elements with
at least one cell, each mapped to its list of trimmed cell texts. -/
def specDataRows (t : Html) : List (List String) :=
  ((specDataRowElems t).filter (fun r => !(findAll ["td", "th"] r).isEmpty)).map
    (fun r => (findAll ["td", "th"] r).map Html.getTextStrip)

/-! Basic lemmas about the HTML model. -/

/-- Induction over the nested tree structure. -/
theorem Html.inductionOn (P : Html → Prop)
    (htext : ∀ s, P (.text s))
    (helem : ∀ tag cs, (∀ c ∈ cs, P c) → P (.elem tag cs)) :
    ∀ h, P h :=
  fun h =>
    @Html.rec P (fun cs => ∀ c ∈ cs, P c)
      htext
      (fun tag cs ih => helem tag cs ih)
      (fun c hc => absurd hc (List.not_mem_nil c))
      (fun hd tl ph ptl c hc => by
        rcases List.mem_cons.mp hc with h1 | h2
        · exact h1 ▸ ph
        · exact ptl c h2)
      h

theorem mem_descendantsList {x : Html} :
    ∀ {cs : List Html}, x ∈ Html.descendantsList cs ↔ ∃ c ∈ cs, x = c ∨ x ∈ c.descendants := by
  intro cs
  induction cs with
  | nil => simp [Html.descendantsList]
  | cons c cs ih =>
    simp only [Html.descendantsList, List.mem_cons, List.mem_append, ih]
    constructor
    · rintro (heq | hx | ⟨c2, hc2, hx2⟩)
      · exact ⟨c, Or.inl rfl, Or.inl heq⟩
      · exact ⟨c, Or.inl rfl, Or.inr hx⟩
      · exact ⟨c2, Or.inr hc2, hx2⟩
    · rintro ⟨c2, hc2 | hc2, hx2⟩
      · rcases hx2 with heq | hx2
        · exact Or.inl (heq.trans hc2)
        · exact Or.inr (Or.inl (hc2 ▸ hx2))
      · exact Or.inr (Or.inr ⟨c2, hc2, hx2⟩)

/-- Membership in descendants is transitive. -/
theorem mem_descendants_trans (z : Html) :
    ∀ x y : Html, x ∈ y.descendants → y ∈ z.descendants → x ∈ z.descendants := by
  induction z using Html.inductionOn with
  | htext s => intro x y _ hy; simp [Html.descendants] at hy
  | helem tag cs ih =>
    intro x y hx hy
    rw [Html.descendants] at hy ⊢
    rcases mem_descendantsList.mp hy with ⟨c, hc, heq | hyc⟩
    · exact mem_descendantsList.mpr ⟨c, hc, Or.inr (heq ▸ hx)⟩
    · exact mem_descendantsList.mpr ⟨c, hc, Or.inr (ih c hc x y hx hyc)⟩

theorem mem_of_mem_findAll {tags : List String} {x h : Html} :
    x ∈ findAll tags h → x ∈ h.descendants :=
  fun hx => List.mem_of_mem_filter hx

theorem findFirst_mem {tag : String} {t y : Html} :
    findFirst tag t = some y → y ∈ t.descendants := by
  unfold findFirst
  cases hl : findAll [tag] t with
  | nil => intro h; simp at h
  | cons a l =>
    intro h
    have hy : a = y := by simpa using h
    subst hy
    exact mem_of_mem_findAll (by rw [hl]; exact List.mem_cons_self _ _)

/-! Lemmas relating the code's row extraction to filter-and-map form. -/

theorem filterMap_ite {α β : Type} (p : α → Bool) (f : α → β) :
    ∀ l : List α,
      l.filterMap (fun a => if p a then none else some (f a)) =
        (l.filter (fun a => !p a)).map f := by
  intro l
  induction l with
  | nil => rfl
  | cons a l ih =>
    by_cases hp : p a
    · simp [List.filterMap_cons, List.filter_cons, hp, ih]
    · simp [List.filterMap_cons, List.filter_cons, hp, ih]

theorem parse_table_headers (t : Html) : (parse_table t).headers = specHeaders t := rfl

theorem icbcRowfn_eq (row : Html) :
    icbcRowfn row =
      if (findAll ["td", "th"] row).isEmpty then none
      else some ((findAll ["td", "th"] row).map Html.getTextStrip) := rfl

theorem filterMap_icbcRowfn (l : List Html) :
    l.filterMap icbcRowfn =
      (l.filter (fun r => !(findAll ["td", "th"] r).isEmpty)).map
        (fun r => (findAll ["td", "th"] r).map Html.getTextStrip) := by
  have h : l.filterMap icbcRowfn =
      l.filterMap (fun r =>
        if (findAll ["td", "th"] r).isEmpty then none
        else some ((findAll ["td", "th"] r).map Html.getTextStrip)) := by
    exact congrArg (fun f => l.filterMap f) (funext icbcRowfn_eq)
  rw [h]
  exact filterMap_ite _ _ _

theorem icbcTableRowElems_eq_spec (t : Html) : icbcTableRowElems t = specDataRowElems t := by
  unfold icbcTableRowElems specDataRowElems
  have hh : icbcHeaders t = specHeaders t := rfl
  cases hb : findFirst "tbody" t with
  | some body => rfl
  | none =>
    cases hs : specHeaders t with
    | nil =>
      have h1 : (icbcHeaders t).isEmpty = true := by rw [hh, hs]; rfl
      simp [h1]
    | cons a l =>
      have h1 : (icbcHeaders t).isEmpty = false := by rw [hh, hs]; rfl
      simp [h1]

theorem parse_table_rows (t : Html) : (parse_table t).rows = specDataRows t := by
  show (icbcTableRowElems t).filterMap icbcRowfn = specDataRows t
  rw [icbcTableRowElems_eq_spec, specDataRows]
  exact filterMap_icbcRowfn _

/-! Claim C1: the two-branch header rule. -/

/-- Concrete table with no `thead`: first row `["Header"]`, second `["Data"]`. -/
def tblC1 : Html :=
  .elem "table" [.elem "tr" [.elem "td" [.text "Header"]], .elem "tr" [.elem "td" [.text "Data"]]]

/-- Concrete table with an explicit `thead` and a `tbody`. -/
def tblC1h : Html :=
  .elem "table" [.elem "thead" [.elem "tr" [.elem "th" [.text "H"]]],
    .elem "tbody" [.elem "tr" [.elem "td" [.text "1"]]]]

/-- Claim C1, counterexample: the claim reads the two-branch rule (headers
from `thead` when present, else from the first row) as holding for both
cited implementations, but the Selenium variant has no first-row fallback:
on a table with rows and no `thead` it extracts no headers at all, while
the two-branch rule yields the first row's cells. -/
theorem headers_two_branch_rule_cex :
    (parse_table_selenium tblC1).headers = [] ∧ specHeaders tblC1 = ["Header"] ∧
      (parse_table_selenium tblC1).headers ≠ specHeaders tblC1 := by decide

/-- Claim C1, amended: the requests-based `_parse_table` follows the
two-branch rule for every table; the Selenium `_parse_table` follows it
exactly when the table has a `thead` descendant, and otherwise leaves the
headers empty. -/
theorem headers_two_branch_rule (t : Html) :
    (parse_table t).headers = specHeaders t ∧
      ((findFirst "thead" t).isSome → (parse_table_selenium t).headers = specHeaders t) ∧
      (findFirst "thead" t = none → (parse_table_selenium t).headers = []) := by
  refine ⟨parse_table_headers t, ?_, ?_⟩
  · intro hsome
    show seleniumHeaders t = specHeaders t
    unfold seleniumHeaders specHeaders
    cases h : findFirst "thead" t with
    | some hr => rfl
    | none => rw [h] at hsome; simp at hsome
  · intro hnone
    show seleniumHeaders t = []
    unfold seleniumHeaders
    rw [hnone]

/-- Claim C1, witness for the amended theorem at concrete tables. -/
theorem headers_two_branch_rule_witness :
    (parse_table_selenium tblC1h).headers = specHeaders tblC1h ∧
      (parse_table_selenium tblC1).headers = [] :=
  ⟨(headers_two_branch_rule tblC1h).2.1 (by decide),
   (headers_two_branch_rule tblC1).2.2 (by decide)⟩

/-! Claim C2: the data-row extraction rule. -/

/-- Concrete table: header row, one data row, one row without cells. -/
def tblC2 : Html :=
  .elem "table" [.elem "tr" [.elem "th" [.text "H"]],
    .elem "tr" [.elem "td" [.text "Data"]], .elem "tr" []]

/-- Claim C2: the requests-based `_parse_table` extracts data rows exactly
by the specified rule (`tbody` rows when a `tbody` descendant exists, else
all `tr` except the first when headers were found, else all `tr`; keep
precisely the rows with at least one cell, mapped to their trimmed cell
texts in order), and an empty list is never emitted as a row. -/
theorem data_row_extraction_rule (t : Html) :
    (parse_table t).rows = specDataRows t ∧
      (∀ r ∈ (parse_table t).rows, r ≠ []) := by
  refine ⟨parse_table_rows t, ?_⟩
  intro r hr
  rw [parse_table_rows] at hr
  unfold specDataRows at hr
  rcases List.mem_map.mp hr with ⟨row, hrow, hre⟩
  have hcell := List.of_mem_filter hrow
  intro hnil
  rw [← hre] at hnil
  have hempty : findAll ["td", "th"] row = [] := List.map_eq_nil_iff.mp hnil
  rw [hempty] at hcell
  simp at hcell

/-- Claim C2, witness at a concrete table. -/
theorem data_row_extraction_rule_witness :
    (parse_table tblC2).rows = specDataRows tblC2 ∧ (["Data"] : List String) ≠ [] :=
  ⟨(data_row_extraction_rule tblC2).1,
   (data_row_extraction_rule tblC2).2 ["Data"] (by decide)⟩

/-! Claim C3: empty tables are dropped, indices are document-order
positions. -/

theorem extractTablesLoop_mem :
    ∀ (ts : List Html) (i : Nat) (e : IndexedTable), e ∈ extractTablesLoop i ts →
      ∃ j t, ts[j]? = some t ∧ e.index = i + j ∧
        (parse_table t).headers = e.headers ∧ (parse_table t).rows = e.rows ∧ e.rows ≠ [] := by
  intro ts
  induction ts with
  | nil => intro i e he; simp [extractTablesLoop] at he
  | cons t0 ts ih =>
    intro i e he
    simp only [extractTablesLoop] at he
    by_cases hr : (parse_table t0).rows.isEmpty
    · rw [if_pos hr] at he
      rcases ih (i + 1) e he with ⟨j, t, hj, hidx, hh, hrw, hne⟩
      refine ⟨j + 1, t, by simpa using hj, by omega, hh, hrw, hne⟩
    · rw [if_neg hr] at he
      rcases List.mem_cons.mp he with heq | htail
      · subst heq
        refine ⟨0, t0, by simp, rfl, rfl, rfl, ?_⟩
        intro hnil
        have hnil' : (parse_table t0).rows = [] := hnil
        exact hr (by rw [hnil']; rfl)
      · rcases ih (i + 1) e htail with ⟨j, t, hj, hidx, hh, hrw, hne⟩
        exact ⟨j + 1, t, by simpa using hj, by omega, hh, hrw, hne⟩

theorem extractTablesLoop_complete :
    ∀ (ts : List Html) (i j : Nat) (t : Html), ts[j]? = some t → (parse_table t).rows ≠ [] →
      ∃ e ∈ extractTablesLoop i ts, e.index = i + j ∧
        e.headers = (parse_table t).headers ∧ e.rows = (parse_table t).rows := by
  intro ts
  induction ts with
  | nil => intro i j t hj; simp at hj
  | cons t0 ts ih =>
    intro i j t hj hne
    cases j with
    | zero =>
      have ht : t0 = t := by simpa using hj
      subst ht
      have hne' : (parse_table t0).rows.isEmpty = false := by
        cases hrows : (parse_table t0).rows with
        | nil => exact absurd hrows hne
        | cons a l => rfl
      refine ⟨⟨i, (parse_table t0).headers, (parse_table t0).rows⟩, ?_, by simp, rfl, rfl⟩
      simp only [extractTablesLoop, hne', Bool.false_eq_true, if_false]
      exact List.mem_cons_self _ _
    | succ j =>
      have hj' : ts[j]? = some t := by simpa using hj
      rcases ih (i + 1) j t hj' hne with ⟨e, hmem, hidx, hh, hrw⟩
      refine ⟨e, ?_, by omega, hh, hrw⟩
      simp only [extractTablesLoop]
      by_cases hr : (parse_table t0).rows.isEmpty
      · rw [if_pos hr]; exact hmem
      · rw [if_neg hr]; exact List.mem_cons_of_mem _ hmem

/-- Claim C3: a parsed table appears in the `tables` output exactly when
its extracted rows are non-empty, and each surviving entry's `index` field
is its zero-based position among all table elements of the document in
document order (dropped tables included), with its headers and rows equal
to that table's parse. -/
theorem parse_page_index_stable (url now : String) (doc : Html) :
    (∀ e ∈ (parse_page url now doc).tables,
        ∃ t, (findAll ["table"] doc)[e.index]? = some t ∧
          (parse_table t).headers = e.headers ∧ (parse_table t).rows = e.rows ∧ e.rows ≠ []) ∧
      (∀ j t, (findAll ["table"] doc)[j]? = some t → (parse_table t).rows ≠ [] →
        ∃ e ∈ (parse_page url now doc).tables, e.index = j ∧
          e.headers = (parse_table t).headers ∧ e.rows = (parse_table t).rows) := by
  constructor
  · intro e he
    have he' : e ∈ extractTablesLoop 0 (findAll ["table"] doc) := he
    rcases extractTablesLoop_mem _ 0 e he' with ⟨j, t, hj, hidx, hh, hrw, hne⟩
    rw [Nat.zero_add] at hidx
    exact ⟨t, hidx ▸ hj, hh, hrw, hne⟩
  · intro j t hj hne
    rcases extractTablesLoop_complete _ 0 j t hj hne with ⟨e, hmem, hidx, hh, hrw⟩
    rw [Nat.zero_add] at hidx
    exact ⟨e, hmem, hidx, hh, hrw⟩

/-- Document with three tables whose middle table parses to no rows. -/
def docC3 : Html :=
  .elem "html" [
    .elem "table" [.elem "tr" [.elem "td" [.text "A"]], .elem "tr" [.elem "td" [.text "a1"]]],
    .elem "table" [],
    .elem "table" [.elem "tr" [.elem "td" [.text "C"]], .elem "tr" [.elem "td" [.text "c1"]]]]

/-- Third table of `docC3`. -/
def tblC3third : Html :=
  .elem "table" [.elem "tr" [.elem "td" [.text "C"]], .elem "tr" [.elem "td" [.text "c1"]]]

/-- Claim C3, witness: with the middle of three tables empty and dropped,
the surviving entries carry indices 0 and 2, and the entry for document
position 2 exists by the theorem. -/
theorem parse_page_index_stable_witness :
    ((parse_page "u" "now" docC3).tables.map (fun e => e.index) = [0, 2]) ∧
      (∃ e ∈ (parse_page "u" "now" docC3).tables, e.index = 2 ∧
        e.headers = (parse_table tblC3third).headers ∧
        e.rows = (parse_table tblC3third).rows) :=
  ⟨by decide, (parse_page_index_stable "u" "now" docC3).2 2 tblC3third (by decide) (by decide)⟩

/-! Claim C4: `parse_page` never raises. -/

/-- Claim C4: under any behaviour of the fallible steps (HTML parsing,
title read), `parse_page` returns a result whose `scraped_at` and `url`
fields are always the supplied timestamp and URL; whenever the internal
computation failed (the `error` field is set) the `tables` list is empty;
in particular a failing parser step yields that error dictionary.  The
embedding is a total function, matching the contract that no exception
reaches the caller. -/
theorem parse_page_never_raises
    (parseHtml : String → Option Html) (gRaw gStrip : Html → Option String)
    (url now html : String) :
    ((parse_pageF parseHtml gRaw gStrip url now html).scraped_at = now) ∧
      ((parse_pageF parseHtml gRaw gStrip url now html).url = url) ∧
      ((parse_pageF parseHtml gRaw gStrip url now html).error.isSome →
        (parse_pageF parseHtml gRaw gStrip url now html).tables = []) ∧
      (parseHtml html = none →
        (parse_pageF parseHtml gRaw gStrip url now html).error.isSome) := by
  cases hp : parseHtml html with
  | none => simp [parse_pageF, hp]
  | some doc =>
    cases ht : titleReadF gRaw doc with
    | none => simp [parse_pageF, hp, ht]
    | some pt => simp [parse_pageF, hp, ht]

/-- Claim C4, witness: a failing HTML-parse step still returns the error
dictionary with empty tables. -/
theorem parse_page_never_raises_witness :
    ((parse_pageF (fun _ => none) (fun h => some h.getTextRaw)
        (fun h => some h.getTextStrip) "u" "now" "x").tables = []) ∧
      ((parse_pageF (fun _ => none) (fun h => some h.getTextRaw)
        (fun h => some h.getTextStrip) "u" "now" "x").error.isSome) := by
  have h := parse_page_never_raises (fun _ => none) (fun h => some h.getTextRaw)
    (fun h => some h.getTextStrip) "u" "now" "x"
  exact ⟨h.2.2.1 (h.2.2.2 rfl), h.2.2.2 rfl⟩

/-! Claim C5: what a per-table failure leaves behind, and locality of
failures. -/

theorem mapOrNone_eq_map (g : Html → Option String) (f : Html → String) :
    ∀ l : List Html, (∀ c ∈ l, g c = some (f c)) → mapOrNone g l = some (l.map f) := by
  intro l
  induction l with
  | nil => intro _; rfl
  | cons c cs ih =>
    intro hg
    have hc := hg c (List.mem_cons_self _ _)
    have hcs := ih (fun x hx => hg x (List.mem_cons_of_mem _ hx))
    simp [mapOrNone, hc, hcs]

theorem fallibleRowsLoop_pure (g : Html → Option String) :
    ∀ rs : List Html, (∀ r ∈ rs, ∀ c ∈ findAll ["td", "th"] r, g c = some c.getTextStrip) →
      fallibleRowsLoop g rs = rs.filterMap icbcRowfn := by
  intro rs
  induction rs with
  | nil => intro _; rfl
  | cons r rs ih =>
    intro hg
    have hr := hg r (List.mem_cons_self _ _)
    have hrs := ih (fun x hx c hc => hg x (List.mem_cons_of_mem _ hx) c hc)
    by_cases hc : (findAll ["td", "th"] r).isEmpty
    · simp [fallibleRowsLoop, icbcRowfn, hc, hrs, List.filterMap_cons]
    · have hmap := mapOrNone_eq_map g Html.getTextStrip _ hr
      simp [fallibleRowsLoop, icbcRowfn, hc, hmap, hrs, List.filterMap_cons]

theorem fallibleHeaders_pure (g : Html → Option String) (t : Html)
    (hg : ∀ x ∈ t.descendants, g x = some x.getTextStrip) :
    fallibleHeaders g t = some (icbcHeaders t) := by
  unfold fallibleHeaders icbcHeaders
  cases hh : findFirst "thead" t with
  | some hrow =>
    apply mapOrNone_eq_map
    intro c hcmem
    exact hg c (mem_descendants_trans t c hrow (mem_of_mem_findAll hcmem) (findFirst_mem hh))
  | none =>
    cases htr : findFirst "tr" t with
    | some frow =>
      apply mapOrNone_eq_map
      intro c hcmem
      exact hg c (mem_descendants_trans t c frow (mem_of_mem_findAll hcmem) (findFirst_mem htr))
    | none => rfl

theorem icbcTableRowElems_subset (t : Html) :
    ∀ r ∈ icbcTableRowElems t, r ∈ t.descendants := by
  intro r
  unfold icbcTableRowElems
  cases hb : findFirst "tbody" t with
  | some body =>
    intro hr
    exact mem_descendants_trans t r body (mem_of_mem_findAll hr) (findFirst_mem hb)
  | none =>
    by_cases hh : (icbcHeaders t).isEmpty
    · rw [if_pos hh]
      intro hr
      exact mem_of_mem_findAll hr
    · rw [if_neg hh]
      intro hr
      exact mem_of_mem_findAll (List.drop_subset _ _ hr)

theorem parse_tableF_pure (g : Html → Option String) (t : Html)
    (hg : ∀ x ∈ t.descendants, g x = some x.getTextStrip) :
    parse_tableF g t = parse_table t := by
  unfold parse_tableF
  rw [fallibleHeaders_pure g t hg]
  show ({ headers := icbcHeaders t,
          rows := fallibleRowsLoop g (icbcTableRowElems t) } : TableData) = parse_table t
  unfold parse_table
  congr 1
  exact fallibleRowsLoop_pure g _ (fun r hrr c hcc =>
    hg c (mem_descendants_trans t c r (mem_of_mem_findAll hcc) (icbcTableRowElems_subset t r hrr)))

/-- Claim C5 (amended): a failure inside `_parse_table` is caught there,
and the table yields the headers and rows accumulated before the failure:
both lists are empty when the failure strikes the header phase, but a
failure in the row loop keeps the already-computed headers (and earlier
rows); when every read inside a table succeeds, that table's extraction is
exactly the pure parse — so a failure confined to one table leaves every
other table's extraction unaffected. -/
theorem parse_table_failure_locality (g : Html → Option String) (t : Html) :
    (fallibleHeaders g t = none → parse_tableF g t = ⟨[], []⟩) ∧
      (∀ hs, fallibleHeaders g t = some hs → (parse_tableF g t).headers = hs) ∧
      ((∀ x ∈ t.descendants, g x = some x.getTextStrip) → parse_tableF g t = parse_table t) := by
  refine ⟨?_, ?_, parse_tableF_pure g t⟩
  · intro h
    unfold parse_tableF
    rw [h]
  · intro hs h
    unfold parse_tableF
    rw [h]

/-- Table with a `thead` header `H` and two body rows `ok` / `BOOM`. -/
def tblC5 : Html :=
  .elem "table" [.elem "thead" [.elem "tr" [.elem "th" [.text "H"]]],
    .elem "tbody" [.elem "tr" [.elem "td" [.text "ok"]], .elem "tr" [.elem "td" [.text "BOOM"]]]]

/-- Read oracle that raises exactly on the `BOOM` data cell. -/
def gC5 : Html → Option String :=
  fun h => if h = Html.elem "td" [Html.text "BOOM"] then none else some h.getTextStrip

/-- Read oracle that raises exactly on the `H` header cell. -/
def gC5h : Html → Option String :=
  fun h => if h = Html.elem "th" [Html.text "H"] then none else some h.getTextStrip

/-- Claim C5, counterexample: a read failure in the second data row is
caught locally, but the table yields its already-extracted headers and
first row — not `{headers: [], rows: []}` as the claim states. -/
theorem parse_table_failure_cex :
    parse_tableF gC5 tblC5 = ⟨["H"], [["ok"]]⟩ ∧
      parse_tableF gC5 tblC5 ≠ parse_table tblC5 ∧
      parse_tableF gC5 tblC5 ≠ (⟨[], []⟩ : TableData) := by decide

/-- Claim C5, witness for the amended theorem: a header-phase failure
yields both lists empty, and a table whose reads all succeed parses
purely. -/
theorem parse_table_failure_locality_witness :
    (parse_tableF gC5h tblC5 = ⟨[], []⟩) ∧
      (parse_tableF (fun h => some h.getTextStrip) tblC5 = parse_table tblC5) :=
  ⟨(parse_table_failure_locality gC5h tblC5).1 (by decide),
   (parse_table_failure_locality (fun h => some h.getTextStrip) tblC5).2.2 (fun x _ => rfl)⟩

/-! Claim C6: `clean_numeric_data`. -/

/-- Claim C6: `clean_numeric_data` strips the thousands separator, currency
glyph, percent sign and CJK yuan glyph from its trimmed input and attempts
a float parse, returning the parsed number and `none` (not zero) on
failure; in particular the four specified examples hold. -/
theorem clean_numeric_data_spec :
    clean_numeric_data "1,234.56" = some (1234.56 : ℚ) ∧
      clean_numeric_data "¥1000" = some (1000 : ℚ) ∧
      clean_numeric_data "5%" = some (5 : ℚ) ∧
      clean_numeric_data "not a number" = none ∧
      (∀ v : String, cleanParse v = none → clean_numeric_data v = none) := by
  refine ⟨?_, ?_, ?_, ?_, ?_⟩
  · have h : cleanParse "1,234.56" = some (123456, -2) := by decide
    rw [clean_numeric_data, h]
    simp only [Option.map_some']
    simp [pyFloatValue]
    norm_num
  · have h : cleanParse "¥1000" = some (1000, 0) := by decide
    rw [clean_numeric_data, h]
    simp only [Option.map_some']
    simp [pyFloatValue]
  · have h : cleanParse "5%" = some (5, 0) := by decide
    rw [clean_numeric_data, h]
    simp only [Option.map_some']
    simp [pyFloatValue]
  · have h : cleanParse "not a number" = none := by decide
    rw [clean_numeric_data, h]
    rfl
  · intro v h
    rw [clean_numeric_data, h]
    rfl

/-- Claim C6, witness for the failure branch at a concrete input. -/
theorem clean_numeric_data_spec_witness :
    clean_numeric_data "abc" = none :=
  clean_numeric_data_spec.2.2.2.2 "abc" (by decide)

/-! Claim C7: two runs on the same document. -/

/-- Document with a title and no tables. -/
def docC7 : Html := .elem "html" [.elem "title" [.text "T"]]

/-- Claim C7, counterexample: calling `parse_page` twice on the same
unmodified document does not yield equal full results, because the returned
dict embeds `scraped_at = datetime.now().isoformat()`, which differs
between the two calls. -/
theorem parse_page_idempotent_cex :
    parse_page "u" "2024-01-01T00:00:00" docC7 ≠
      parse_page "u" "2024-01-01T00:00:01" docC7 := by decide

/-- Claim C7 (amended): two runs of `parse_page` on the same unmodified
document agree on every field except possibly `scraped_at`, and are fully
equal when the two timestamps coincide. -/
theorem parse_page_deterministic (url : String) (doc : Html) (now1 now2 : String) :
    ((parse_page url now1 doc).url = (parse_page url now2 doc).url) ∧
      ((parse_page url now1 doc).page_title = (parse_page url now2 doc).page_title) ∧
      ((parse_page url now1 doc).tables = (parse_page url now2 doc).tables) ∧
      ((parse_page url now1 doc).error = (parse_page url now2 doc).error) ∧
      (now1 = now2 → parse_page url now1 doc = parse_page url now2 doc) := by
  refine ⟨rfl, rfl, rfl, rfl, ?_⟩
  intro h
  rw [h]

/-- Claim C7, witness for the amended theorem at a concrete input. -/
theorem parse_page_deterministic_witness :
    parse_page "u" "t0" docC7 = parse_page "u" "t0" docC7 :=
  (parse_page_deterministic "u" docC7 "t0" "t0").2.2.2.2 rfl

/-! Claim C8: CSV output per table. -/

theorem foldl_append_records {α : Type} :
    ∀ (rows : List α) (init : List α),
      rows.foldl (fun acc r => acc ++ [r]) init = init ++ rows := by
  intro rows
  induction rows with
  | nil => intro init; simp
  | cons r rs ih =>
    intro init
    rw [List.foldl_cons, ih]
    simp

/-- Claim C8: the records written for one extracted table are the header
record first exactly when the headers list is non-empty, followed by one
record per data row in the order the rows appear; `save_tables_to_csv`
writes one such file per table. -/
theorem csv_records_spec (headers : List String) (rows : List (List String)) :
    writeCsvRecords headers rows = (if headers.isEmpty then [] else [headers]) ++ rows ∧
      (headers ≠ [] → writeCsvRecords headers rows = headers :: rows) ∧
      (headers = [] → writeCsvRecords headers rows = rows) ∧
      (∀ tables : List IndexedTable,
        save_tables_to_csv tables = tables.map (fun t => writeCsvRecords t.headers t.rows)) := by
  have hmain : writeCsvRecords headers rows =
      (if headers.isEmpty then [] else [headers]) ++ rows := by
    unfold writeCsvRecords
    cases headers with
    | nil => simp [foldl_append_records]
    | cons a l => simp [foldl_append_records]
  refine ⟨hmain, ?_, ?_, fun _ => rfl⟩
  · intro hne
    rw [hmain]
    cases headers with
    | nil => exact absurd rfl hne
    | cons a l => rfl
  · intro he
    subst he
    rw [hmain]
    rfl

/-- Claim C8, witness at concrete tables. -/
theorem csv_records_spec_witness :
    writeCsvRecords ["h"] [["a"], ["b"]] = [["h"], ["a"], ["b"]] ∧
      writeCsvRecords [] [["a"]] = [["a"]] :=
  ⟨(csv_records_spec ["h"] [["a"], ["b"]]).2.1 (by decide),
   (csv_records_spec [] [["a"]]).2.2.1 rfl⟩

/-! Claim C9: the CMB extractor's row filter. -/

/-- Row-inclusion test of the CMB extractor: at least one cell element and
at least one stripped cell text non-empty. -/
def cmbKeepRow (r : SelRow) : Bool :=
  !r.cells.isEmpty && (r.cells.map pyStrip).any (fun s => !s.isEmpty)

theorem filterMap_guard {α β : Type} (p : α → Bool) (f : α → β) :
    ∀ l : List α,
      l.filterMap (fun a => if p a then some (f a) else none) = (l.filter p).map f := by
  intro l
  induction l with
  | nil => rfl
  | cons a l ih =>
    by_cases hp : p a
    · simp [List.filterMap_cons, List.filter_cons, hp, ih]
    · simp [List.filterMap_cons, List.filter_cons, hp, ih]

theorem cmbRowfn_eq (row : SelRow) :
    (if row.cells.isEmpty then none
     else
       let row_data := row.cells.map pyStrip
       if row_data.any (fun s => !s.isEmpty) then some row_data else none) =
      (if cmbKeepRow row then some (row.cells.map pyStrip) else none) := by
  unfold cmbKeepRow
  by_cases h1 : row.cells.isEmpty
  · simp [h1]
  · by_cases h2 : (row.cells.map pyStrip).any (fun s => !s.isEmpty)
    · simp [h1, h2]
    · simp [h1, h2]

/-- Whitespace-only single-cell table (for comparison with the ICBC rule). -/
def tblC9 : Html :=
  .elem "table" [.elem "tbody" [.elem "tr" [.elem "td" [.text "  "]]]]

/-- Claim C9: in `CMBNetValueScraper._extract_from_table` a non-header row
is kept exactly when it has at least one cell element and at least one of
its stripped cell texts is non-empty; this is strictly stricter than the
ICBC extractor's at-least-one-cell rule, which keeps a whitespace-only
row as `[""]` while the CMB extractor silently drops the corresponding
row. -/
theorem cmb_row_filter (header_row : SelRow) (rest : List SelRow) :
    cmb_extract_from_table (header_row :: rest) =
        (header_row.cells.map pyStrip) ::
          ((rest.filter cmbKeepRow).map (fun r => r.cells.map pyStrip)) ∧
      (∀ r : SelRow, cmbKeepRow r = true → r.cells ≠ []) ∧
      (cmbKeepRow ⟨["  "]⟩ = false ∧ (SelRow.mk ["  "]).cells ≠ []) ∧
      (parse_table tblC9).rows = [[""]] ∧
      cmb_extract_from_table [⟨["X"]⟩, ⟨["  "]⟩] = [["X"]] := by
  refine ⟨?_, ?_, by decide, by decide, by decide⟩
  · show (header_row.cells.map pyStrip) :: _ = _
    congr 1
    rw [congrArg (fun f => rest.filterMap f) (funext cmbRowfn_eq)]
    exact filterMap_guard _ _ _
  · intro r h
    unfold cmbKeepRow at h
    cases hc : r.cells with
    | nil => rw [hc] at h; simp at h
    | cons a l => simp

/-- Claim C9, witness at a concrete row. -/
theorem cmb_row_filter_witness : (SelRow.mk ["a"]).cells ≠ [] :=
  (cmb_row_filter ⟨["H"]⟩ []).2.1 ⟨["a"]⟩ (by decide)

/-! Claim C10: the ragged-row policy of `extract_financial_data` and the
dict semantics of `row_dict`. -/

theorem lookup_dictInsert (k v : String) :
    ∀ (m : List (String × String)) (k2 : String),
      (dictInsert m k v).lookup k2 = if k2 == k then some v else m.lookup k2 := by
  intro m
  induction m with
  | nil =>
    intro k2
    by_cases h : k2 = k
    · have hb : (k2 == k) = true := by simpa using h
      simp [dictInsert, List.lookup, hb]
    · have hb : (k2 == k) = false := by simpa using h
      simp [dictInsert, List.lookup, hb]
  | cons p m ih =>
    obtain ⟨pk, pv⟩ := p
    intro k2
    unfold dictInsert
    by_cases hp : pk = k
    · have hpb : (pk == k) = true := by simpa using hp
      rw [if_pos hpb]
      by_cases h2 : k2 = k
      · have h2b : (k2 == k) = true := by simpa using h2
        simp [List.lookup, h2b]
      · have h2b : (k2 == k) = false := by simpa using h2
        have h2pk : (k2 == pk) = false := by
          have : ¬ k2 = pk := by rw [hp]; exact h2
          simpa using this
        simp [List.lookup, h2b, h2pk]
    · have hpb : (pk == k) = false := by simpa using hp
      rw [if_neg (by simp [hpb])]
      by_cases h2 : k2 = pk
      · have h2b : (k2 == pk) = true := by simpa using h2
        have hk2k : (k2 == k) = false := by
          have : ¬ k2 = k := by rw [h2]; exact hp
          simpa using this
        simp [List.lookup, h2b, hk2k]
      · have h2b : (k2 == pk) = false := by simpa using h2
        simp [List.lookup, h2b, ih]

/-- Index of the last position below `n` whose key equals `k`, if any:
the position whose value survives in a Python dict built by successive
assignments. -/
def lastMatch (key : Nat → String) (k : String) : Nat → Option Nat
  | 0 => none
  | n + 1 => if key n == k then some n else lastMatch key k n

theorem lookup_foldl_range (key val : Nat → String) (k : String) :
    ∀ (n : Nat) (m : List (String × String)),
      ((List.range n).foldl (fun m i => dictInsert m (key i) (val i)) m).lookup k =
        match lastMatch key k n with
        | some i => some (val i)
        | none => m.lookup k := by
  intro n
  induction n with
  | zero => intro m; simp [lastMatch]
  | succ n ih =>
    intro m
    rw [List.range_succ, List.foldl_append]
    simp only [List.foldl_cons, List.foldl_nil]
    rw [lookup_dictInsert]
    show _ = (match (if key n == k then some n else lastMatch key k n) with
      | some i => some (val i)
      | none => m.lookup k)
    by_cases hk : k = key n
    · have h1 : (k == key n) = true := by simpa using hk
      have h2 : (key n == k) = true := by simpa using hk.symm
      simp [h1, h2]
    · have h1 : (k == key n) = false := by simpa using hk
      have h2 : (key n == k) = false := by simpa using (fun h => hk h.symm : ¬ key n = k)
      simp [h1, h2, ih]

theorem lastMatch_isSome (key : Nat → String) (k : String) :
    ∀ n, (lastMatch key k n).isSome = true ↔ ∃ i, i < n ∧ key i = k := by
  intro n
  induction n with
  | zero => simp [lastMatch]
  | succ n ih =>
    show (if key n == k then some n else lastMatch key k n).isSome = true ↔ _
    by_cases hk : key n = k
    · have h1 : (key n == k) = true := by simpa using hk
      simp only [h1, if_true, Option.isSome_some, true_iff]
      exact ⟨n, Nat.lt_succ_self n, hk⟩
    · have h1 : (key n == k) = false := by simpa using hk
      simp only [h1, Bool.false_eq_true, if_false, ih]
      constructor
      · rintro ⟨i, hi, hki⟩
        exact ⟨i, by omega, hki⟩
      · rintro ⟨i, hi, hki⟩
        rcases Nat.lt_succ_iff_lt_or_eq.mp hi with h | h
        · exact ⟨i, h, hki⟩
        · subst h; contradiction

theorem lastMatch_eq_of_last (key : Nat → String) (k : String) :
    ∀ n i, i < n → key i = k → (∀ j, i < j → j < n → key j ≠ k) →
      lastMatch key k n = some i := by
  intro n
  induction n with
  | zero => intro i hi _ _; exact absurd hi (Nat.not_lt_zero i)
  | succ n ih =>
    intro i hi hk hlast
    show (if key n == k then some n else lastMatch key k n) = some i
    by_cases he : i = n
    · subst he
      have h1 : (key i == k) = true := by simpa using hk
      simp [h1]
    · have hin : i < n := by omega
      have hkn : key n ≠ k := hlast n (by omega) (by omega)
      have h1 : (key n == k) = false := by simpa using hkn
      simp only [h1, Bool.false_eq_true, if_false]
      exact ih i hin hk (fun j hj1 hj2 => hlast j hj1 (by omega))

theorem row_dict_lookup (headers row : List String) (k : String) :
    (row_dict headers row).lookup k =
      match lastMatch (fun i => headers.getD i "") k headers.length with
      | some i => some (rowValueAt row i)
      | none => none := by
  unfold row_dict
  rw [lookup_foldl_range]
  cases lastMatch (fun i => headers.getD i "") k headers.length <;> rfl

theorem efd_foldl_mono :
    ∀ (ts : List TableData) (acc : List (List (String × String))) (x : List (String × String)),
      x ∈ acc → x ∈ ts.foldl efdStep acc := by
  intro ts
  induction ts with
  | nil => intro acc x hx; simpa using hx
  | cons t ts ih =>
    intro acc x hx
    rw [List.foldl_cons]
    apply ih
    unfold efdStep
    by_cases hc : (net_value_cols t.headers).isEmpty
    · rw [if_pos hc]; exact hx
    · rw [if_neg hc]; exact List.mem_append_left _ hx

theorem efd_mem :
    ∀ (ts : List TableData) (acc : List (List (String × String))) (t : TableData),
      t ∈ ts → ¬ (net_value_cols t.headers).isEmpty = true →
      ∀ r ∈ t.rows, row_dict t.headers r ∈ ts.foldl efdStep acc := by
  intro ts
  induction ts with
  | nil => intro acc t ht; simp at ht
  | cons t0 ts ih =>
    intro acc t ht hc r hr
    rw [List.foldl_cons]
    rcases List.mem_cons.mp ht with heq | htail
    · subst heq
      apply efd_foldl_mono
      unfold efdStep
      rw [if_neg hc]
      exact List.mem_append_right _ (List.mem_map.mpr ⟨r, hr, rfl⟩)
    · exact ih _ t htail hc r hr

theorem exists_index_getD {hs : List String} {p : String → Bool} :
    (∃ i, i < hs.length ∧ p (hs.getD i "") = true) ↔ ∃ h ∈ hs, p h = true := by
  constructor
  · rintro ⟨i, hi, hp⟩
    refine ⟨hs.getD i "", ?_, hp⟩
    rw [List.getD_eq_getElem _ _ hi]
    exact List.getElem_mem hi
  · rintro ⟨h, hmem, hp⟩
    rcases List.mem_iff_getElem.mp hmem with ⟨i, hi, hh⟩
    exact ⟨i, hi, by rw [List.getD_eq_getElem _ _ hi, hh]; exact hp⟩

/-- Claim C10, counterexample: with duplicated header names the Python dict
comprehension collapses entries and the last position wins, so the record
is not keyed by all header positions: for headers `["a", "a"]` and row
`["1", "2"]` the record is `{"a": "2"}` and position 0 does not map to its
cell `"1"`. -/
theorem extract_financial_ragged_cex :
    row_dict ["a", "a"] ["1", "2"] = [("a", "2")] ∧
      (row_dict ["a", "a"] ["1", "2"]).lookup "a" ≠ some "1" ∧
      (row_dict ["a", "a"] ["1", "2"]).length ≠ (["a", "a"] : List String).length := by
  decide

/-- Claim C10 (amended): in `extract_financial_data`, each row of a
matching table becomes a dict keyed by the distinct header names, where a
name maps to the value of its last position `i` among the headers —
`row[i]` when the row is long enough and `''` otherwise, so cells beyond
the header count are discarded; when header names are pairwise distinct
this is exactly the claimed policy (position `i` maps to the row's `i`-th
cell or `''`).  A table contributes its rows exactly when some header
passes the net/value/净值 test. -/
theorem extract_financial_ragged (headers row : List String) :
    (∀ i, (hi : i < headers.length) →
        (∀ j, i < j → (hj : j < headers.length) → headers[j] ≠ headers[i]) →
        (row_dict headers row).lookup headers[i] = some (rowValueAt row i)) ∧
      (headers.Nodup → ∀ i, (hi : i < headers.length) →
        (row_dict headers row).lookup headers[i] = some (rowValueAt row i)) ∧
      (∀ k, ((row_dict headers row).lookup k).isSome = true ↔ k ∈ headers) ∧
      (∀ (tables : List TableData) (t : TableData), t ∈ tables →
        (net_value_cols t.headers).isEmpty = false →
        ∀ r ∈ t.rows, row_dict t.headers r ∈ extract_financial_data tables) ∧
      (∀ hs : List String,
        (net_value_cols hs).isEmpty = false ↔ ∃ h ∈ hs, isNetValueHeader h = true) := by
  have hlastpos : ∀ i, (hi : i < headers.length) →
      (∀ j, i < j → (hj : j < headers.length) → headers[j] ≠ headers[i]) →
      (row_dict headers row).lookup headers[i] = some (rowValueAt row i) := by
    intro i hi hlast
    rw [row_dict_lookup]
    have hkey : lastMatch (fun j => headers.getD j "") headers[i] headers.length = some i := by
      apply lastMatch_eq_of_last
      · exact hi
      · exact List.getD_eq_getElem _ _ hi
      · intro j hj1 hj2
        rw [List.getD_eq_getElem _ _ hj2]
        exact hlast j hj1 hj2
    rw [hkey]
  refine ⟨hlastpos, ?_, ?_, ?_, ?_⟩
  · intro hnd i hi
    apply hlastpos
    intro j hj1 hj2
    intro heq
    have : j = i := (List.Nodup.getElem_inj_iff hnd).mp heq
    omega
  · intro k
    rw [row_dict_lookup]
    cases hl : lastMatch (fun j => headers.getD j "") k headers.length with
    | some i =>
      simp only [Option.isSome_some, true_iff]
      have : ∃ i, i < headers.length ∧ headers.getD i "" = k := by
        have := (lastMatch_isSome (fun j => headers.getD j "") k headers.length).mp
          (by rw [hl]; rfl)
        exact this
      rcases this with ⟨i, hi, hk⟩
      rw [← hk, List.getD_eq_getElem _ _ hi]
      exact List.getElem_mem hi
    | none =>
      simp only [Option.isSome_none, Bool.false_eq_true, false_iff]
      intro hmem
      rcases List.mem_iff_getElem.mp hmem with ⟨i, hi, hh⟩
      have : (lastMatch (fun j => headers.getD j "") k headers.length).isSome = true :=
        (lastMatch_isSome _ _ _).mpr ⟨i, hi, by rw [List.getD_eq_getElem _ _ hi]; exact hh⟩
      rw [hl] at this
      simp at this
  · intro tables t ht hc r hr
    apply efd_mem tables [] t ht _ r hr
    rw [hc]
    simp
  · intro hs
    constructor
    · intro hne
      have : ∃ x, x ∈ net_value_cols hs := by
        cases hnv : net_value_cols hs with
        | nil => rw [hnv] at hne; simp at hne
        | cons a l => exact ⟨a, List.mem_cons_self _ _⟩
      rcases this with ⟨i, hi⟩
      unfold net_value_cols at hi
      have h1 := List.mem_filter.mp hi
      have h2 : i < hs.length := List.mem_range.mp h1.1
      exact exists_index_getD.mp ⟨i, h2, h1.2⟩
    · intro hex
      rcases exists_index_getD.mpr hex with ⟨i, hi, hp⟩
      have : i ∈ net_value_cols hs := by
        unfold net_value_cols
        exact List.mem_filter.mpr ⟨List.mem_range.mpr hi, hp⟩
      cases hnv : net_value_cols hs with
      | nil => rw [hnv] at this; simp at this
      | cons a l => rfl

/-- Claim C10, witness: the amended theorem applied at concrete inputs —
distinct headers map each position to its cell (or `''` when the row is
short), and a header containing `Net Value` passes the matching test. -/
theorem extract_financial_ragged_witness :
    ((row_dict ["a", "b"] ["1"]).lookup "a" = some "1") ∧
      ((row_dict ["a", "b"] ["1"]).lookup "b" = some "") ∧
      ((net_value_cols ["Date", "Net Value"]).isEmpty = false) := by
  refine ⟨?_, ?_, ?_⟩
  · have h := (extract_financial_ragged ["a", "b"] ["1"]).2.1 (by decide) 0 (by decide)
    simpa using h
  · have h := (extract_financial_ragged ["a", "b"] ["1"]).2.1 (by decide) 1 (by decide)
    simpa using h
  · exact (extract_financial_ragged [] []).2.2.2.2 ["Date", "Net Value"] |>.mpr
      ⟨"Net Value", by decide, by decide⟩

end MyScraper
